import Mathlib

/-!
Verification of the spglm GLM core (family.py, links.py, varfuncs.py) against its
natural-language specification.  The numeric code is embedded shallowly over ℝ:
numpy's elementwise transforms become real functions, `np.clip` becomes min/max,
machine epsilon `np.finfo(float).eps` becomes the exact rational 2^-52, and
vectorized sums become finite sums over `Fin n`.
-/

noncomputable section

open scoped Classical

/-- `np.finfo(float).eps` for 64-bit IEEE floats, i.e. 2^-52 (`FLOAT_EPS` in all
three source modules). -/
def FLOAT_EPS : ℝ := (2 : ℝ) ^ (-52 : ℤ)

/-- `np.clip(x, FLOAT_EPS, 1 - FLOAT_EPS)`: the `_clean` helper of `links.Logit`
(shared by `CDFLink` and `CLogLog` through inheritance) and of
`varfuncs.Binomial`. -/
def cleanP (p : ℝ) : ℝ := min (max p FLOAT_EPS) (1 - FLOAT_EPS)

/-- `np.clip(x, FLOAT_EPS, np.inf)`: the `_clean` helper of `links.Log`,
`links.NegativeBinomial`, `varfuncs.NegativeBinomial` and of the Poisson /
QuasiPoisson / Gamma families (the `np.inf` upper bound never clips). -/
def cleanPos (x : ℝ) : ℝ := max x FLOAT_EPS

/-- Modelled from the spec: a `scipy.stats` continuous distribution object
(the `dbn` parameter of `links.CDFLink`), supplying `cdf`, `ppf` (quantile)
and `pdf`.  scipy is external to this repository; the fields record the
inverse-pair and positive-density guarantees that the distributions actually
used (`scipy.stats.norm` for probit, `scipy.stats.cauchy` for cauchy) provide
on their full-real support. -/
structure Dbn where
  cdf : ℝ → ℝ
  ppf : ℝ → ℝ
  pdf : ℝ → ℝ
  cdf_ppf : ∀ p, 0 < p → p < 1 → cdf (ppf p) = p
  ppf_cdf : ∀ z, ppf (cdf z) = z
  pdf_pos : ∀ x, 0 < pdf x

/-- The link variants of `links.py`: `Logit`, `Power(power)` (whose named
aliases are identity `k=1`, sqrt `k=0.5`, inverse_power `k=-1`,
inverse_squared `k=-2`), `Log`, `CDFLink(dbn)` (aliases probit, cauchy),
`CLogLog`, and `NegativeBinomial(alpha)`. -/
inductive LinkV where
  | logit : LinkV
  | power (k : ℝ) : LinkV
  | log : LinkV
  | cdf (D : Dbn) : LinkV
  | cloglog : LinkV
  | nbinom (a : ℝ) : LinkV

/-- The forward transform `__call__` of each link class in `links.py`. -/
def linkCall : LinkV → ℝ → ℝ
  | .logit, p => Real.log (cleanP p / (1 - cleanP p))
  | .power k, p => p ^ k
  | .log, p => Real.log (cleanPos p)
  | .cdf D, p => D.ppf (cleanP p)
  | .cloglog, p => Real.log (-Real.log (1 - cleanP p))
  | .nbinom a, p => Real.log (cleanPos p / (cleanPos p + 1 / a))

/-- The `inverse` method of each link class in `links.py`. -/
def linkInverse : LinkV → ℝ → ℝ
  | .logit, z => 1 / (1 + Real.exp (-z))
  | .power k, z => z ^ (1 / k)
  | .log, z => Real.exp z
  | .cdf D, z => D.cdf z
  | .cloglog, z => 1 - Real.exp (-Real.exp z)
  | .nbinom a, z => -1 / (a * (1 - Real.exp (-z)))

/-- The `deriv` method of each link class in `links.py`. -/
def linkDeriv : LinkV → ℝ → ℝ
  | .logit, p => 1 / (cleanP p * (1 - cleanP p))
  | .power k, p => k * p ^ (k - 1)
  | .log, p => 1 / cleanPos p
  | .cdf D, p => 1 / D.pdf (D.ppf (cleanP p))
  | .cloglog, p => 1 / ((cleanP p - 1) * Real.log (1 - cleanP p))
  | .nbinom a, p => 1 / (p + a * p ^ (2 : ℕ))

/-- The `inverse_deriv` method of each link class in `links.py`.  `Logit`,
`Power`, `Log`, `CLogLog` and `NegativeBinomial` override the base-class form
with an analytic expression; `CDFLink` re-implements the base-class default
`1 / deriv(inverse(z))` verbatim. -/
def linkInverseDeriv : LinkV → ℝ → ℝ
  | .logit, z => Real.exp z / (1 + Real.exp z) ^ (2 : ℕ)
  | .power k, z => z ^ ((1 - k) / k) / k
  | .log, z => Real.exp z
  | .cdf D, z => 1 / linkDeriv (.cdf D) (linkInverse (.cdf D) z)
  | .cloglog, z => Real.exp (z - Real.exp z)
  | .nbinom a, z => Real.exp z / (a * (1 - Real.exp z) ^ (2 : ℕ))

/-- The variance-function variants of `varfuncs.py`: `VarianceFunction`
(alias constant), `Power(power)` (aliases mu, mu_squared, mu_cubed),
`Binomial(n)` (alias binary for n=1) and `NegativeBinomial(alpha)`. -/
inductive VarF where
  | constant : VarF
  | powerV (k : ℝ) : VarF
  | binom (n : ℝ) : VarF
  | negbin (a : ℝ) : VarF

/-- The `__call__` method of each variance class in `varfuncs.py`. -/
def varCall : VarF → ℝ → ℝ
  | .constant, _ => 1
  | .powerV k, mu => |mu| ^ k
  | .binom n, mu => cleanP (mu / n) * (1 - cleanP (mu / n)) * n
  | .negbin a, mu => cleanPos mu + a * cleanPos mu ^ (2 : ℕ)

/-- `Family.weights` from `family.py`:
`1. / (self.link.deriv(mu) ** 2 * self.variance(mu))`. -/
def famWeights (L : LinkV) (V : VarF) (mu : ℝ) : ℝ :=
  1 / (linkDeriv L mu ^ (2 : ℕ) * varCall V mu)

/-- `Poisson.resid_dev` from `family.py`:
`sign(endog - mu) * sqrt(2 * (endog * log(clean(endog/mu)) - (endog - mu))) / scale`. -/
def poissonResidDev (n : ℕ) (endog mu : Fin n → ℝ) (scale : ℝ) (i : Fin n) : ℝ :=
  Real.sign (endog i - mu i) *
    Real.sqrt (2 * (endog i * Real.log (cleanPos (endog i / mu i)) - (endog i - mu i))) / scale

/-- `Poisson.deviance` from `family.py`:
`2 * sum(endog * freq_weights * log(clean(endog/mu))) / scale`. -/
def poissonDeviance (n : ℕ) (endog mu w : Fin n → ℝ) (scale : ℝ) : ℝ :=
  2 * (∑ i, endog i * w i * Real.log (cleanPos (endog i / mu i))) / scale

/-- `QuasiPoisson.resid_dev` from `family.py` (textually identical to the
Poisson one). -/
def quasiPoissonResidDev (n : ℕ) (endog mu : Fin n → ℝ) (scale : ℝ) (i : Fin n) : ℝ :=
  Real.sign (endog i - mu i) *
    Real.sqrt (2 * (endog i * Real.log (cleanPos (endog i / mu i)) - (endog i - mu i))) / scale

/-- `QuasiPoisson.deviance` from `family.py` (textually identical to the
Poisson one). -/
def quasiPoissonDeviance (n : ℕ) (endog mu w : Fin n → ℝ) (scale : ℝ) : ℝ :=
  2 * (∑ i, endog i * w i * Real.log (cleanPos (endog i / mu i))) / scale

/-- `Gaussian.resid_dev` from `family.py`:
`(endog - mu) / sqrt(self.variance(mu)) / scale`, with `self.variance` the
constant variance function. -/
def gaussianResidDev (n : ℕ) (endog mu : Fin n → ℝ) (scale : ℝ) (i : Fin n) : ℝ :=
  (endog i - mu i) / Real.sqrt (varCall .constant (mu i)) / scale

/-- `Gaussian.deviance` from `family.py`:
`sum(freq_weights * (endog - mu) ** 2) / scale`. -/
def gaussianDeviance (n : ℕ) (endog mu w : Fin n → ℝ) (scale : ℝ) : ℝ :=
  (∑ i, w i * (endog i - mu i) ^ (2 : ℕ)) / scale

/-- `Gamma.resid_dev` from `family.py`:
`sign(endog - mu) * sqrt(-2 * (-(endog - mu)/mu + log(clean(endog/mu))))`
(the `scale` argument is accepted but unused by the source). -/
def gammaResidDev (n : ℕ) (endog mu : Fin n → ℝ) (scale : ℝ) (i : Fin n) : ℝ :=
  Real.sign (endog i - mu i) *
    Real.sqrt (-2 * (-(endog i - mu i) / mu i + Real.log (cleanPos (endog i / mu i))))

/-- `Gamma.deviance` from `family.py`:
`2 * sum(freq_weights * ((endog - mu)/mu - log(clean(endog/mu))))`
(the `scale` argument is accepted but unused by the source). -/
def gammaDeviance (n : ℕ) (endog mu w : Fin n → ℝ) (scale : ℝ) : ℝ :=
  2 * ∑ i, w i * ((endog i - mu i) / mu i - Real.log (cleanPos (endog i / mu i)))

/-- The grouped (`n != 1`) branch of `Binomial.resid_dev` from `family.py`,
with the per-observation trial counts `nn` (`self.n`) and the fitted mean
first passed through `self.link._clean` (the logit clip). -/
def binomialResidDevGrouped (m : ℕ) (nn endog mu : Fin m → ℝ) (scale : ℝ) (i : Fin m) : ℝ :=
  Real.sign (endog i - cleanP (mu i)) *
    Real.sqrt (2 * nn i *
      (endog i * Real.log (endog i / cleanP (mu i) + 1e-200) +
        (1 - endog i) * Real.log ((1 - endog i) / (1 - cleanP (mu i)) + 1e-200))) / scale

/-- The grouped (`n != 1`) branch of `Binomial.deviance` from `family.py`:
`2 * sum(self.n * freq_weights * (endog*log(endog/mu + 1e-200)
 + (1-endog)*log((1-endog)/(1-mu) + 1e-200)))` (no division by scale). -/
def binomialDevianceGrouped (m : ℕ) (nn endog mu w : Fin m → ℝ) (scale : ℝ) : ℝ :=
  2 * ∑ i, nn i * w i *
      (endog i * Real.log (endog i / mu i + 1e-200) +
        (1 - endog i) * Real.log ((1 - endog i) / (1 - mu i) + 1e-200))

/-- The generic (non-identity-link) branch of `Gaussian.loglike` from
`family.py`. -/
def gaussianLoglikeGeneric (n : ℕ) (endog mu : Fin n → ℝ) (w : Fin n → ℝ) (scale : ℝ) : ℝ :=
  ∑ i, w i * ((endog i * mu i - mu i ^ (2 : ℕ) / 2) / scale -
      endog i ^ (2 : ℕ) / (2 * scale) - 0.5 * Real.log (2 * Real.pi * scale))

/-- `Gaussian.loglike` from `family.py`.  When the family's link is a `Power`
instance with `power == 1` (which includes the `identity` alias) the exact OLS
closed form is used, with `SSR = sum((endog - self.fitted(mu))**2)`; otherwise
the generic exponential-family expression is returned. -/
def gaussianLoglike (link : LinkV) (n : ℕ) (endog mu : Fin n → ℝ) (w : Fin n → ℝ)
    (scale : ℝ) : ℝ :=
  match link with
  | .power k =>
      if k = 1 then
        -Real.log (∑ i, (endog i - linkInverse (.power k) (mu i)) ^ (2 : ℕ)) * ((n : ℝ) / 2) -
          (1 + Real.log (Real.pi / ((n : ℝ) / 2))) * ((n : ℝ) / 2)
      else gaussianLoglikeGeneric n endog mu w scale
  | _ => gaussianLoglikeGeneric n endog mu w scale

/-- The scalar-or-vector trial count `self.n` of the `Binomial` family
(a scalar `1` after `__init__`, a per-row vector after a grouped
`initialize`). -/
inductive BinomN where
  | scalar (c : ℝ) : BinomN
  | vec (v : List ℝ) : BinomN

/-- The mutable state of a `Binomial` family instance that `__init__` and
`initialize` touch: the trial count `n` and the owned variance function. -/
structure BinomialFam where
  n : BinomN
  variance : VarF

/-- `Binomial.__init__` from `family.py`: sets `self.n = 1` and
`self.variance = V.Binomial(n=self.n)` (capturing the value `1`). -/
def binomialInit : BinomialFam := { n := .scalar 1, variance := .binom 1 }

/-- A response array as passed to `Binomial.initialize`: either 1-dimensional
or 2-dimensional (a list of rows). -/
inductive Endog where
  | oneD (v : List ℝ) : Endog
  | twoD (rows : List (List ℝ)) : Endog

/-- `endog.shape[1]` of a 2-d response array (numpy arrays are rectangular,
so the first row's length is the column count). -/
def shape1 : List (List ℝ) → ℕ
  | [] => 0
  | r :: _ => r.length

/-- `Binomial.initialize` from `family.py`.  For a 2-d response with more than
one column it takes the first column `y = endog[:, 0]`, sets
`self.n = endog.sum(1)` (row sums) and returns `(y / self.n, self.n)`;
otherwise it returns `(endog, np.ones(endog.shape[0]))` and leaves the family
state untouched.  `self.variance` is not modified on either path. -/
def binomialInitialize (fam : BinomialFam) (endog : Endog) : BinomialFam × Endog × List ℝ :=
  match endog with
  | .twoD rows =>
      if 1 < shape1 rows then
        ({ fam with n := .vec (rows.map List.sum) },
          .oneD (rows.map fun r => r.headD 0 / r.sum),
          rows.map List.sum)
      else ({ fam with n := fam.n }, .twoD rows, List.replicate rows.length 1)
  | .oneD v => ({ fam with n := fam.n }, .oneD v, List.replicate v.length 1)

/-- The Python classes of `links.py`, used to model the `isinstance` checks of
`Family._setlink`. -/
inductive PyClass where
  | Link | Logit | logit | Power | inverse_power | sqrt | inverse_squared | identity
  | Log | log | CDFLink | probit | cauchy | CLogLog | cloglog
  | NegativeBinomial | nbinom
  deriving DecidableEq

/-- The method-resolution chain of each class of `links.py` (itself first,
then its base classes up to the root).  `NegativeBinomial` does not inherit
from `Link`. -/
def mro : PyClass → List PyClass
  | .Link => [.Link]
  | .Logit => [.Logit, .Link]
  | .logit => [.logit, .Logit, .Link]
  | .Power => [.Power, .Link]
  | .inverse_power => [.inverse_power, .Power, .Link]
  | .sqrt => [.sqrt, .Power, .Link]
  | .inverse_squared => [.inverse_squared, .Power, .Link]
  | .identity => [.identity, .Power, .Link]
  | .Log => [.Log, .Link]
  | .log => [.log, .Log, .Link]
  | .CDFLink => [.CDFLink, .Logit, .Link]
  | .probit => [.probit, .CDFLink, .Logit, .Link]
  | .cauchy => [.cauchy, .CDFLink, .Logit, .Link]
  | .CLogLog => [.CLogLog, .Logit, .Link]
  | .cloglog => [.cloglog, .CLogLog, .Logit, .Link]
  | .NegativeBinomial => [.NegativeBinomial]
  | .nbinom => [.nbinom, .NegativeBinomial]

/-- `isinstance(obj, target)` for an object whose runtime class is `c`. -/
def isinstance (c target : PyClass) : Bool := (mro c).contains target

/-- The per-family state that `Family._setlink` reads and writes: the class
attribute `links` (the accepted link classes) and the instance attribute
`_link` (the currently stored link, by its runtime class). -/
structure FamilyState where
  links : List PyClass
  linkAttr : Option PyClass
  deriving DecidableEq

/-- The exceptions `Family._setlink` can raise: the `TypeError` for a
non-`Link` argument, the `ValueError` that `max([])` raises when the `links`
class attribute is empty (the abstract base `Family`), and the `ValueError`
`"Invalid link for family, should be in %s. (got %s)"` whose payload carries
the accepted set and the offending link. -/
inductive SetlinkErr where
  | typeError : SetlinkErr
  | emptyMax : SetlinkErr
  | invalidLink (accepted : List PyClass) (got : PyClass) : SetlinkErr
  deriving DecidableEq

/-- `Family._setlink` from `family.py`.  Faithful to the statement order of
the source: `self._link = link` executes before any validation, then a
`TypeError` is raised for non-`Link` objects, then
`validlink = max([isinstance(link, _) for _ in self.links])` (an any-fold,
raising on an empty list) decides the `ValueError`. -/
def setlink (f : FamilyState) (lnk : PyClass) : FamilyState × Option SetlinkErr :=
  let f' : FamilyState := { f with linkAttr := some lnk }
  if isinstance lnk .Link then
    match f.links with
    | [] => (f', some .emptyMax)
    | l :: ls =>
        if (l :: ls).any (fun c => isinstance lnk c) then (f', none)
        else (f', some (.invalidLink f.links lnk))
  else (f', some .typeError)

/-- The five concrete family variants of `family.py`. -/
inductive FamV where
  | poisson | quasiPoisson | gaussian | gamma | binomial
  deriving DecidableEq

/-- The `links` class attribute of each family variant (lists of link
classes). -/
def famLinks : FamV → List PyClass
  | .poisson => [.log, .identity, .sqrt]
  | .quasiPoisson => [.log, .identity, .sqrt]
  | .gaussian => [.log, .identity, .inverse_power]
  | .gamma => [.log, .identity, .inverse_power]
  | .binomial => [.logit, .probit, .cauchy, .log, .cloglog, .identity]

/-- The variance function each family variant owns after `__init__`
(`V.mu`, `V.mu`, `V.constant`, `V.mu_squared`, `V.Binomial(n=1)`). -/
def famVariance : FamV → VarF
  | .poisson => .powerV 1
  | .quasiPoisson => .powerV 1
  | .gaussian => .constant
  | .gamma => .powerV 2
  | .binomial => .binom 1

/-- The link functions (as numeric transforms) accepted by each family
variant, matching the `links` class attributes: `log`, `identity`, `sqrt`,
`inverse_power` are `Power` aliases, `probit` and `cauchy` are `CDFLink`
instances. -/
def acceptedL : FamV → LinkV → Prop
  | .poisson, l => l = .log ∨ l = .power 1 ∨ l = .power 0.5
  | .quasiPoisson, l => l = .log ∨ l = .power 1 ∨ l = .power 0.5
  | .gaussian, l => l = .log ∨ l = .power 1 ∨ l = .power (-1)
  | .gamma, l => l = .log ∨ l = .power 1 ∨ l = .power (-1)
  | .binomial, l =>
      l = .logit ∨ (∃ D, l = .cdf D) ∨ l = .log ∨ l = .cloglog ∨ l = .power 1

/-- The clip-invariant interior of each link's valid mean range: the region
where the `_clean` epsilon-clipping is the identity, intersected with the
domain of the mathematical transform (`k ≠ 0` excludes the degenerate
constant Power transform, `0 < a` is the documented positivity of the
Negative-Binomial ancillary parameter). -/
def meanDom : LinkV → ℝ → Prop
  | .logit, p => FLOAT_EPS ≤ p ∧ p ≤ 1 - FLOAT_EPS
  | .power k, p => 0 < p ∧ k ≠ 0
  | .log, p => FLOAT_EPS ≤ p
  | .cdf _, p => FLOAT_EPS ≤ p ∧ p ≤ 1 - FLOAT_EPS
  | .cloglog, p => FLOAT_EPS ≤ p ∧ p ≤ 1 - FLOAT_EPS
  | .nbinom a, p => FLOAT_EPS ≤ p ∧ 0 < a

/-- The corresponding linear-predictor range of each link: the predictors
whose inverse image lies in the clip-invariant interior of the mean range. -/
def predDom : LinkV → ℝ → Prop
  | .logit, z => FLOAT_EPS ≤ linkInverse .logit z ∧ linkInverse .logit z ≤ 1 - FLOAT_EPS
  | .power k, z => 0 < z ∧ k ≠ 0
  | .log, z => FLOAT_EPS ≤ Real.exp z
  | .cdf D, z => FLOAT_EPS ≤ D.cdf z ∧ D.cdf z ≤ 1 - FLOAT_EPS
  | .cloglog, z =>
      FLOAT_EPS ≤ linkInverse .cloglog z ∧ linkInverse .cloglog z ≤ 1 - FLOAT_EPS
  | .nbinom a, z => 0 < a ∧ z < 0 ∧ FLOAT_EPS ≤ linkInverse (.nbinom a) z

/-- The linear-predictor region on which each link's `inverse_deriv` agrees
with the base-class reference form `1 / deriv(inverse(z))`. -/
def invDerivDom : LinkV → ℝ → Prop
  | .logit, z => FLOAT_EPS ≤ linkInverse .logit z ∧ linkInverse .logit z ≤ 1 - FLOAT_EPS
  | .power k, z => 0 < z ∧ k ≠ 0
  | .log, z => FLOAT_EPS ≤ Real.exp z
  | .cdf _, _ => True
  | .cloglog, z =>
      FLOAT_EPS ≤ linkInverse .cloglog z ∧ linkInverse .cloglog z ≤ 1 - FLOAT_EPS
  | .nbinom a, z => 0 < a ∧ z ≠ 0

/-- The open interior of each family's valid mean support, per accepted link:
positive means for the count/positive families, any nonzero mean for the
Gaussian inverse link (any mean at all for its other links), and any mean for
the Binomial family whose variance input is clipped into `(0, 1)`. -/
def interiorMean : FamV → LinkV → ℝ → Prop
  | .poisson, _, mu => 0 < mu
  | .quasiPoisson, _, mu => 0 < mu
  | .gamma, _, mu => 0 < mu
  | .gaussian, l, mu => l = .power (-1) → mu ≠ 0
  | .binomial, _, _ => True

lemma eps_pos : 0 < FLOAT_EPS := by
  unfold FLOAT_EPS
  positivity

lemma eps_le_half : FLOAT_EPS ≤ 1 / 2 := by
  unfold FLOAT_EPS
  rw [zpow_neg, show ((52 : ℤ) : ℤ) = ((52 : ℕ) : ℤ) by norm_num, zpow_natCast]
  rw [inv_le_comm₀ (by positivity) (by norm_num)]
  norm_num

lemma eps_le_centile : FLOAT_EPS ≤ 1 / 100 := by
  unfold FLOAT_EPS
  rw [zpow_neg, show ((52 : ℤ) : ℤ) = ((52 : ℕ) : ℤ) by norm_num, zpow_natCast]
  rw [inv_le_comm₀ (by positivity) (by norm_num)]
  norm_num

lemma eps_lt_one : FLOAT_EPS < 1 := lt_of_le_of_lt eps_le_half (by norm_num)

lemma eps_le_one_sub_eps : FLOAT_EPS ≤ 1 - FLOAT_EPS := by
  have := eps_le_half
  linarith

lemma one_sub_eps_lt_one : 1 - FLOAT_EPS < 1 := by
  have := eps_pos
  linarith

lemma cleanPos_eq_self {x : ℝ} (h : FLOAT_EPS ≤ x) : cleanPos x = x := by
  unfold cleanPos
  exact max_eq_left h

lemma cleanPos_pos (x : ℝ) : 0 < cleanPos x :=
  lt_of_lt_of_le eps_pos (le_max_right x FLOAT_EPS)

lemma cleanP_mem (x : ℝ) : FLOAT_EPS ≤ cleanP x ∧ cleanP x ≤ 1 - FLOAT_EPS := by
  unfold cleanP
  constructor
  · exact le_min (le_max_right x FLOAT_EPS) eps_le_one_sub_eps
  · exact min_le_right _ _

lemma cleanP_eq_self {x : ℝ} (h1 : FLOAT_EPS ≤ x) (h2 : x ≤ 1 - FLOAT_EPS) :
    cleanP x = x := by
  unfold cleanP
  rw [max_eq_left h1, min_eq_left h2]

lemma log_eps_le_neg_one : Real.log FLOAT_EPS ≤ -1 := by
  have h2 : (0.6931471803 : ℝ) < Real.log 2 := Real.log_two_gt_d9
  have : Real.log FLOAT_EPS = (-52 : ℤ) * Real.log 2 := by
    unfold FLOAT_EPS
    exact Real.log_zpow 2 (-52)
  rw [this]
  push_cast
  nlinarith

/-- The basic convexity inequality `r - 1 ≤ r * log r` for positive `r`. -/
lemma sub_one_le_mul_log {r : ℝ} (hr : 0 < r) : r - 1 ≤ r * Real.log r := by
  have h := Real.log_le_sub_one_of_pos (inv_pos.mpr hr)
  rw [Real.log_inv] at h
  have h2 := mul_le_mul_of_nonneg_left h hr.le
  rw [mul_sub, mul_inv_cancel₀ hr.ne'] at h2
  nlinarith

/-- The clipped logarithm stays below `r - 1` on positives: the clipping at
`FLOAT_EPS` only lowers the logarithm further. -/
lemma log_cleanPos_le {r : ℝ} (hr : 0 < r) : Real.log (cleanPos r) ≤ r - 1 := by
  rcases le_or_lt FLOAT_EPS r with h | h
  · rw [cleanPos_eq_self h]
    exact Real.log_le_sub_one_of_pos hr
  · have : cleanPos r = FLOAT_EPS := max_eq_right h.le
    rw [this]
    have := log_eps_le_neg_one
    linarith

/-- Squaring `sign(x) * sqrt(e)` recovers `e` when `e` is nonnegative and
vanishes whenever `x` does. -/
lemma sign_mul_sqrt_sq {x e : ℝ} (he : 0 ≤ e) (hz : x = 0 → e = 0) :
    (Real.sign x * Real.sqrt e) ^ (2 : ℕ) = e := by
  rcases lt_trichotomy x 0 with hx | hx | hx
  · rw [Real.sign_of_neg hx, mul_pow]
    norm_num
    exact Real.sq_sqrt he
  · rw [hx, Real.sign_zero, zero_mul]
    rw [hz hx]
    norm_num
  · rw [Real.sign_of_pos hx, one_mul, Real.sq_sqrt he]

/-- The Poisson deviance-residual radicand is nonnegative on the valid
response/mean domain. -/
lemma poisson_core_le {y mu : ℝ} (hy : 0 ≤ y) (hmu : 0 < mu) :
    y - mu ≤ y * Real.log (cleanPos (y / mu)) := by
  rcases eq_or_lt_of_le hy with hy0 | hy0
  · rw [← hy0]
    simp
    linarith
  · set r := y / mu with hr
    have hrpos : 0 < r := div_pos hy0 hmu
    rcases le_or_lt FLOAT_EPS r with h | h
    · rw [cleanPos_eq_self h]
      have h1 := sub_one_le_mul_log hrpos
      have h2 := mul_le_mul_of_nonneg_left h1 hmu.le
      have hyr : mu * r = y := by
        rw [hr]
        field_simp
      calc y - mu = mu * (r - 1) := by rw [mul_sub, hyr]; ring
        _ ≤ mu * (r * Real.log r) := h2
        _ = y * Real.log r := by rw [← hyr]; ring
    · have hc : cleanPos r = FLOAT_EPS := max_eq_right h.le
      rw [hc]
      have hyl : y ≤ FLOAT_EPS * mu := by
        have := (div_lt_iff₀ hmu).mp h
        linarith
      have hlog := log_eps_le_neg_one
      have hone : 0 ≤ 1 - Real.log FLOAT_EPS := by linarith
      have heps := sub_one_le_mul_log eps_pos
      -- y * (1 - log eps) ≤ eps*mu*(1 - log eps) ≤ mu
      have h1 : y * (1 - Real.log FLOAT_EPS) ≤ FLOAT_EPS * mu * (1 - Real.log FLOAT_EPS) :=
        mul_le_mul_of_nonneg_right hyl hone
      have h2 : FLOAT_EPS * mu * (1 - Real.log FLOAT_EPS) ≤ mu := by
        have : FLOAT_EPS * (1 - Real.log FLOAT_EPS) ≤ 1 := by nlinarith
        nlinarith
      nlinarith

/-- Pointwise squaring of the Poisson deviance residual at unit scale. -/
lemma poisson_pointwise {y mu : ℝ} (hy : 0 ≤ y) (hmu : 0 < mu) :
    (Real.sign (y - mu) *
        Real.sqrt (2 * (y * Real.log (cleanPos (y / mu)) - (y - mu))) / 1) ^ (2:ℕ)
      = 2 * (y * Real.log (cleanPos (y / mu))) + 2 * (mu - y) := by
  rw [div_one]
  have he : 0 ≤ 2 * (y * Real.log (cleanPos (y / mu)) - (y - mu)) := by
    have := poisson_core_le hy hmu
    linarith
  have hz : y - mu = 0 → 2 * (y * Real.log (cleanPos (y / mu)) - (y - mu)) = 0 := by
    intro h
    have hym : y = mu := by linarith
    subst hym
    rw [div_self hmu.ne', cleanPos_eq_self eps_lt_one.le, Real.log_one]
    ring
  rw [sign_mul_sqrt_sq he hz]
  ring

/-- Pointwise squaring of the Gamma deviance residual. -/
lemma gamma_pointwise {y mu : ℝ} (hy : 0 < y) (hmu : 0 < mu) :
    (Real.sign (y - mu) *
        Real.sqrt (-2 * (-(y - mu) / mu + Real.log (cleanPos (y / mu))))) ^ (2:ℕ)
      = 2 * ((y - mu) / mu - Real.log (cleanPos (y / mu))) := by
  have hr : 0 < y / mu := div_pos hy hmu
  have hid : y / mu - 1 = (y - mu) / mu := by field_simp
  have hlog : Real.log (cleanPos (y / mu)) ≤ (y - mu) / mu := by
    rw [← hid]
    exact log_cleanPos_le hr
  have he : 0 ≤ -2 * (-(y - mu) / mu + Real.log (cleanPos (y / mu))) := by
    rw [neg_div]
    nlinarith
  have hz : y - mu = 0 → -2 * (-(y - mu) / mu + Real.log (cleanPos (y / mu))) = 0 := by
    intro h
    have hym : y = mu := by linarith
    subst hym
    rw [div_self hmu.ne', cleanPos_eq_self eps_lt_one.le, Real.log_one]
    ring
  rw [sign_mul_sqrt_sq he hz]
  ring

/-- Nonnegativity of the Bernoulli Kullback-Leibler divergence. -/
lemma bernoulli_kl_nonneg {y mu : ℝ} (hy0 : 0 ≤ y) (hy1 : y ≤ 1)
    (h0 : 0 < mu) (h1 : mu < 1) :
    0 ≤ y * Real.log (y / mu) + (1 - y) * Real.log ((1 - y) / (1 - mu)) := by
  have hmm : 0 < 1 - mu := by linarith
  rcases eq_or_lt_of_le hy0 with h | hy0'
  · rw [← h]
    simp only [zero_mul, sub_zero, one_mul, zero_add]
    apply Real.log_nonneg
    rw [le_div_iff₀ hmm]
    linarith
  rcases eq_or_lt_of_le hy1 with h | hy1'
  · rw [h]
    simp only [sub_self, zero_mul, add_zero, one_mul]
    apply Real.log_nonneg
    rw [le_div_iff₀ h0]
    linarith
  have hyy : 0 < 1 - y := by linarith
  have l1 := Real.log_le_sub_one_of_pos (div_pos h0 hy0')
  have l2 := Real.log_le_sub_one_of_pos (div_pos hmm hyy)
  rw [Real.log_div h0.ne' hy0'.ne'] at l1
  rw [Real.log_div hmm.ne' hyy.ne'] at l2
  have m1 : y * (Real.log mu - Real.log y) ≤ mu - y := by
    have hstep := mul_le_mul_of_nonneg_left l1 hy0'.le
    calc y * (Real.log mu - Real.log y) ≤ y * (mu / y - 1) := hstep
      _ = mu - y := by field_simp
  have m2 : (1 - y) * (Real.log (1 - mu) - Real.log (1 - y)) ≤ y - mu := by
    have hstep := mul_le_mul_of_nonneg_left l2 hyy.le
    calc (1 - y) * (Real.log (1 - mu) - Real.log (1 - y))
        ≤ (1 - y) * ((1 - mu) / (1 - y) - 1) := hstep
      _ = y - mu := by field_simp
  rw [Real.log_div hy0'.ne' h0.ne', Real.log_div hyy.ne' hmm.ne']
  nlinarith

/-- Pointwise squaring of the grouped Binomial deviance residual at unit
scale, under means inside the clipping range and a response differing from
the mean. -/
lemma binom_grouped_pointwise {nn y mu : ℝ} (hn : 0 ≤ nn) (hy0 : 0 ≤ y) (hy1 : y ≤ 1)
    (hmlo : FLOAT_EPS ≤ mu) (hmhi : mu ≤ 1 - FLOAT_EPS) (hne : y ≠ mu) :
    (Real.sign (y - cleanP mu) * Real.sqrt (2 * nn *
        (y * Real.log (y / cleanP mu + 1e-200) +
          (1 - y) * Real.log ((1 - y) / (1 - cleanP mu) + 1e-200))) / 1) ^ (2:ℕ)
      = 2 * nn * (y * Real.log (y / mu + 1e-200) +
          (1 - y) * Real.log ((1 - y) / (1 - mu) + 1e-200)) := by
  rw [div_one, cleanP_eq_self hmlo hmhi]
  have h0 : 0 < mu := lt_of_lt_of_le eps_pos hmlo
  have h1 : mu < 1 := lt_of_le_of_lt hmhi one_sub_eps_lt_one
  have hmm : 0 < 1 - mu := by linarith
  have t1 : y * Real.log (y / mu) ≤ y * Real.log (y / mu + 1e-200) := by
    rcases eq_or_lt_of_le hy0 with h | h
    · rw [← h, zero_mul, zero_mul]
    · exact mul_le_mul_of_nonneg_left
        (Real.log_le_log (div_pos h h0) (by norm_num)) h.le
  have t2 : (1 - y) * Real.log ((1 - y) / (1 - mu))
      ≤ (1 - y) * Real.log ((1 - y) / (1 - mu) + 1e-200) := by
    rcases eq_or_lt_of_le hy1 with h | h
    · rw [h, sub_self, zero_mul, zero_mul]
    · have hyy : 0 < 1 - y := by linarith
      exact mul_le_mul_of_nonneg_left
        (Real.log_le_log (div_pos hyy hmm) (by norm_num)) hyy.le
  have hkl := bernoulli_kl_nonneg hy0 hy1 h0 h1
  have he : 0 ≤ 2 * nn * (y * Real.log (y / mu + 1e-200) +
      (1 - y) * Real.log ((1 - y) / (1 - mu) + 1e-200)) := by
    apply mul_nonneg (by linarith)
    linarith
  have hz : y - mu = 0 → 2 * nn * (y * Real.log (y / mu + 1e-200) +
      (1 - y) * Real.log ((1 - y) / (1 - mu) + 1e-200)) = 0 := by
    intro h
    exact absurd (by linarith : y = mu) hne
  rw [sign_mul_sqrt_sq he hz]

/-- Claim C9: the Logit link's forward transform and derivative clip their
input to `[eps, 1-eps]` (eps the 64-bit machine epsilon) before the
logarithm/division, so applied to `p = 0` or `p = 1` they are total and
produce finite values: the clipped value stays strictly inside `(0, 1)`, the
logarithm's argument and the derivative's denominator are strictly positive,
and at the boundaries the transform takes the finite clipped closed forms. -/
theorem logit_boundary_clipped_finite :
    (∀ p : ℝ, FLOAT_EPS ≤ cleanP p ∧ cleanP p ≤ 1 - FLOAT_EPS ∧
        0 < cleanP p / (1 - cleanP p) ∧ 0 < cleanP p * (1 - cleanP p)) ∧
    linkCall .logit 0 = Real.log (FLOAT_EPS / (1 - FLOAT_EPS)) ∧
    linkCall .logit 1 = Real.log ((1 - FLOAT_EPS) / FLOAT_EPS) ∧
    linkDeriv .logit 0 = 1 / (FLOAT_EPS * (1 - FLOAT_EPS)) ∧
    linkDeriv .logit 1 = 1 / ((1 - FLOAT_EPS) * FLOAT_EPS) := by
  have hc0 : cleanP 0 = FLOAT_EPS := by
    unfold cleanP
    rw [max_eq_right eps_pos.le, min_eq_left eps_le_one_sub_eps]
  have hc1 : cleanP 1 = 1 - FLOAT_EPS := by
    unfold cleanP
    rw [max_eq_left eps_lt_one.le, min_eq_right (by linarith [eps_pos])]
  refine ⟨fun p => ?_, ?_, ?_, ?_, ?_⟩
  · obtain ⟨h1, h2⟩ := cleanP_mem p
    have hpos : 0 < cleanP p := lt_of_lt_of_le eps_pos h1
    have hlt : 0 < 1 - cleanP p := by linarith [eps_pos]
    exact ⟨h1, h2, div_pos hpos hlt, mul_pos hpos hlt⟩
  · show Real.log (cleanP 0 / (1 - cleanP 0)) = _
    rw [hc0]
  · show Real.log (cleanP 1 / (1 - cleanP 1)) = _
    rw [hc1]
    ring_nf
  · show 1 / (cleanP 0 * (1 - cleanP 0)) = _
    rw [hc0]
  · show 1 / (cleanP 1 * (1 - cleanP 1)) = _
    rw [hc1]
    ring_nf

/-- Claim C7: for the Gaussian family with the identity Power link
(`Power(power=1)`), `loglike` returns exactly the OLS closed form
`-(n/2)*ln(SSR) - (n/2)*(1 + ln(2*pi/n))`, with `SSR` the sum of squared
differences between the response and the fitted means, for any frequency
weights and scale (the OLS branch ignores both). -/
theorem gaussian_loglike_identity_ols (n : ℕ) (endog mu : Fin n → ℝ)
    (w : Fin n → ℝ) (scale : ℝ) :
    gaussianLoglike (.power 1) n endog mu w scale
      = -((n : ℝ) / 2) * Real.log (∑ i, (endog i - mu i) ^ (2 : ℕ))
        - ((n : ℝ) / 2) * (1 + Real.log (2 * Real.pi / (n : ℝ))) := by
  have hfit : ∀ i, linkInverse (.power 1) (mu i) = mu i := by
    intro i
    show mu i ^ ((1 : ℝ) / 1) = mu i
    norm_num
  have hpi : Real.log (Real.pi / ((n : ℝ) / 2)) = Real.log (2 * Real.pi / (n : ℝ)) := by
    rw [div_div_eq_mul_div, mul_comm Real.pi 2]
  show (if (1 : ℝ) = 1 then _ else _) = _
  rw [if_pos rfl]
  simp only [hfit, hpi]
  ring

/-- Claim C2 (amended): `Binomial.initialize` never touches the family's
variance function: after initialization on any response (grouped or binary)
the variance is still the `V.Binomial(n=1)` instance captured at
construction, so `variance(mu) = clip(mu, eps, 1-eps) * (1 - clip(mu, eps,
1-eps)) * 1` with `n = 1`, not the formula with the derived `n`. -/
theorem binomial_variance_unchanged_by_initialize (e : Endog) (mu : ℝ) :
    (binomialInitialize binomialInit e).1.variance = VarF.binom 1 ∧
    varCall (binomialInitialize binomialInit e).1.variance mu
      = cleanP mu * (1 - cleanP mu) * 1 := by
  have hv : (binomialInitialize binomialInit e).1.variance = VarF.binom 1 := by
    cases e with
    | oneD v => rfl
    | twoD rows =>
        by_cases h : 1 < shape1 rows <;> simp [binomialInitialize, h] <;> rfl
  refine ⟨hv, ?_⟩
  rw [hv]
  show cleanP (mu / 1) * (1 - cleanP (mu / 1)) * 1 = _
  rw [div_one]

/-- Claim C2, counterexample: after initializing on the two-column response
`[[3, 7]]` (derived `n = 10`), the family's variance at `mu = 0.3` is
`0.3 * 0.7 * 1 = 0.21`, not the value `0.291` of the claimed Binomial
variance formula parameterized by the derived `n = 10`. -/
theorem binomial_variance_ne_grouped_formula :
    varCall (binomialInitialize binomialInit (.twoD [[3, 7]])).1.variance (3 / 10)
        = 21 / 100 ∧
    varCall (VarF.binom 10) (3 / 10) = 291 / 1000 ∧
    varCall (binomialInitialize binomialInit (.twoD [[3, 7]])).1.variance (3 / 10)
        ≠ varCall (VarF.binom 10) (3 / 10) := by
  have heps : FLOAT_EPS ≤ 3 / 100 := le_trans eps_le_centile (by norm_num)
  have hv : (binomialInitialize binomialInit (.twoD [[3, 7]])).1.variance
      = VarF.binom 1 := by
    have h : 1 < shape1 [[(3 : ℝ), 7]] := by
      show 1 < 2
      norm_num
    simp [binomialInitialize, h]
    rfl
  have h3 : cleanP (3 / 10 / 1) = 3 / 10 := by
    rw [div_one]
    exact cleanP_eq_self (le_trans heps (by norm_num)) (by
      have := eps_le_half
      linarith)
  have h03 : cleanP (3 / 10 / 10) = 3 / 100 := by
    rw [show (3 : ℝ) / 10 / 10 = 3 / 100 by norm_num]
    exact cleanP_eq_self heps (by
      have := eps_le_half
      linarith)
  have ha : varCall (binomialInitialize binomialInit (.twoD [[3, 7]])).1.variance (3 / 10)
      = 21 / 100 := by
    rw [hv]
    show cleanP (3 / 10 / 1) * (1 - cleanP (3 / 10 / 1)) * 1 = _
    rw [h3]
    norm_num
  have hb : varCall (VarF.binom 10) (3 / 10) = 291 / 1000 := by
    show cleanP (3 / 10 / 10) * (1 - cleanP (3 / 10 / 10)) * 10 = _
    rw [h03]
    norm_num
  refine ⟨ha, hb, ?_⟩
  rw [ha, hb]
  norm_num

/-- Claim C8: `Binomial.initialize` on a multi-column (successes, failures)
response sets `n` to the row-wise sums and returns the first column divided
by those sums; a one-dimensional response is returned unchanged with the
family state (hence `n = 1` from `__init__`) untouched and weights of
ones. -/
theorem binomial_initialize_correct :
    (∀ (fam : BinomialFam) (rows : List (List ℝ)), 1 < shape1 rows →
        binomialInitialize fam (.twoD rows)
          = ({ fam with n := .vec (rows.map List.sum) },
              .oneD (rows.map fun r => r.headD 0 / r.sum),
              rows.map List.sum)) ∧
    (∀ v : List ℝ,
        binomialInitialize binomialInit (.oneD v)
          = (binomialInit, .oneD v, List.replicate v.length 1)) := by
  constructor
  · intro fam rows h
    simp only [binomialInitialize, if_pos h]
  · intro v
    rfl

/-- Claim C8, witness: with successes `3` and failures `7`, initialization
derives `n = [10]` and the proportion response `[0.3]`. -/
theorem binomial_initialize_correct_witness :
    1 < shape1 [[(3 : ℝ), 7]] ∧
    binomialInitialize binomialInit (.twoD [[(3 : ℝ), 7]])
      = ({ binomialInit with n := .vec [10] }, .oneD [0.3], [10]) := by
  have h : 1 < shape1 [[(3 : ℝ), 7]] := by
    show 1 < 2
    norm_num
  refine ⟨h, ?_⟩
  rw [binomial_initialize_correct.1 binomialInit [[(3 : ℝ), 7]] h]
  norm_num [List.sum_cons, List.sum_nil, List.headD]

/-- Claim C3 (amended): for each of the five family variants, assigning a
link that is an `L.Link` instance but not an instance of any class in the
family's `links` attribute raises the `ValueError` whose message payload
names both the accepted set (`repr(self.links)`) and the offending link;
assigning a link object that is not an `L.Link` instance at all (such as the
`NegativeBinomial` link class, which does not subclass `Link`) instead
raises the fixed-message `TypeError`, which names neither. -/
theorem setlink_invalid_link_errors (F : FamV) (st : FamilyState) (c : PyClass)
    (hst : st.links = famLinks F) :
    (isinstance c .Link = true →
      (famLinks F).any (fun cl => isinstance c cl) = false →
      setlink st c = ({ st with linkAttr := some c },
        some (.invalidLink (famLinks F) c))) ∧
    (isinstance c .Link = false →
      setlink st c = ({ st with linkAttr := some c }, some .typeError)) := by
  constructor
  · intro hlink hbad
    unfold setlink
    rw [hst] at *
    cases F <;> simp_all [famLinks]
  · intro hlink
    unfold setlink
    simp [hlink]

/-- Claim C3, witness: assigning a `logit` instance to the Poisson family
(whose accepted classes are `log`, `identity`, `sqrt`) yields the
`ValueError` carrying the accepted set and the offending `logit`. -/
theorem setlink_invalid_link_errors_witness :
    ((⟨famLinks .poisson, some .log⟩ : FamilyState).links = famLinks .poisson) ∧
    isinstance .logit .Link = true ∧
    (famLinks .poisson).any (fun cl => isinstance .logit cl) = false ∧
    setlink ⟨famLinks .poisson, some .log⟩ .logit
      = (⟨famLinks .poisson, some .logit⟩,
          some (.invalidLink (famLinks .poisson) .logit)) := by
  refine ⟨rfl, by decide, by decide, ?_⟩
  exact (setlink_invalid_link_errors .poisson _ .logit rfl).1 (by decide) (by decide)

/-- Claim C3, counterexample: assigning an `nbinom` (NegativeBinomial) link
instance to the Poisson family is an assignment of a link that is not an
instance of any accepted class, yet the raised error is the
`TypeError("The input should be a valid Link object.")`, not the
`ValueError` that names the offending link and the accepted set: the
`NegativeBinomial` link class does not subclass `L.Link`, so it never
reaches the naming check. -/
theorem setlink_nbinom_typeerror_names_neither :
    (famLinks .poisson).any (fun cl => isinstance .nbinom cl) = false ∧
    isinstance .nbinom .Link = false ∧
    (setlink ⟨famLinks .poisson, some .log⟩ .nbinom).2 = some .typeError ∧
    (setlink ⟨famLinks .poisson, some .log⟩ .nbinom).2
      ≠ some (.invalidLink (famLinks .poisson) .nbinom) := by
  refine ⟨by decide, by decide, by decide, by decide⟩

/-- Claim C1 (amended): at `scale = 1` the frequency-weighted sum of squared
deviance residuals equals the deviance for the Gaussian family, for the Gamma
family (positive response and mean), and for the grouped Binomial case
(responses in `[0, 1]` differing from means lying inside the clipping range);
for Poisson and QuasiPoisson the sum instead equals
`deviance + 2 * sum(w * (mu - y))` — their `deviance` omits the `-(y - mu)`
term that `resid_dev` carries. -/
theorem resid_dev_sq_sum_vs_deviance :
    (∀ (n : ℕ) (y mu w : Fin n → ℝ),
        ∑ i, w i * gaussianResidDev n y mu 1 i ^ (2:ℕ) = gaussianDeviance n y mu w 1) ∧
    (∀ (n : ℕ) (y mu w : Fin n → ℝ), (∀ i, 0 < y i) → (∀ i, 0 < mu i) →
        ∑ i, w i * gammaResidDev n y mu 1 i ^ (2:ℕ) = gammaDeviance n y mu w 1) ∧
    (∀ (n : ℕ) (y mu w : Fin n → ℝ), (∀ i, 0 ≤ y i) → (∀ i, 0 < mu i) →
        ∑ i, w i * poissonResidDev n y mu 1 i ^ (2:ℕ)
          = poissonDeviance n y mu w 1 + 2 * ∑ i, w i * (mu i - y i)) ∧
    (∀ (n : ℕ) (y mu w : Fin n → ℝ), (∀ i, 0 ≤ y i) → (∀ i, 0 < mu i) →
        ∑ i, w i * quasiPoissonResidDev n y mu 1 i ^ (2:ℕ)
          = quasiPoissonDeviance n y mu w 1 + 2 * ∑ i, w i * (mu i - y i)) ∧
    (∀ (m : ℕ) (nn y mu w : Fin m → ℝ), (∀ i, 0 ≤ nn i) →
        (∀ i, 0 ≤ y i ∧ y i ≤ 1) →
        (∀ i, FLOAT_EPS ≤ mu i ∧ mu i ≤ 1 - FLOAT_EPS) → (∀ i, y i ≠ mu i) →
        ∑ i, w i * binomialResidDevGrouped m nn y mu 1 i ^ (2:ℕ)
          = binomialDevianceGrouped m nn y mu w 1) := by
  refine ⟨?_, ?_, ?_, ?_, ?_⟩
  · intro n y mu w
    simp only [gaussianResidDev, gaussianDeviance, varCall, Real.sqrt_one, div_one]
  · intro n y mu w hy hmu
    simp only [gammaResidDev, gammaDeviance]
    rw [Finset.mul_sum]
    apply Finset.sum_congr rfl
    intro i _
    rw [gamma_pointwise (hy i) (hmu i)]
    ring
  · intro n y mu w hy hmu
    calc ∑ i, w i * poissonResidDev n y mu 1 i ^ (2:ℕ)
        = ∑ i, (2 * (y i * w i * Real.log (cleanPos (y i / mu i)))
            + 2 * (w i * (mu i - y i))) := by
          apply Finset.sum_congr rfl
          intro i _
          simp only [poissonResidDev]
          rw [poisson_pointwise (hy i) (hmu i)]
          ring
      _ = poissonDeviance n y mu w 1 + 2 * ∑ i, w i * (mu i - y i) := by
          simp only [poissonDeviance, div_one]
          rw [Finset.sum_add_distrib, ← Finset.mul_sum, ← Finset.mul_sum]
  · intro n y mu w hy hmu
    calc ∑ i, w i * quasiPoissonResidDev n y mu 1 i ^ (2:ℕ)
        = ∑ i, (2 * (y i * w i * Real.log (cleanPos (y i / mu i)))
            + 2 * (w i * (mu i - y i))) := by
          apply Finset.sum_congr rfl
          intro i _
          simp only [quasiPoissonResidDev]
          rw [poisson_pointwise (hy i) (hmu i)]
          ring
      _ = quasiPoissonDeviance n y mu w 1 + 2 * ∑ i, w i * (mu i - y i) := by
          simp only [quasiPoissonDeviance, div_one]
          rw [Finset.sum_add_distrib, ← Finset.mul_sum, ← Finset.mul_sum]
  · intro m nn y mu w hn hy hmu hne
    simp only [binomialResidDevGrouped, binomialDevianceGrouped]
    rw [Finset.mul_sum]
    apply Finset.sum_congr rfl
    intro i _
    rw [binom_grouped_pointwise (hn i) (hy i).1 (hy i).2 (hmu i).1 (hmu i).2 (hne i)]
    ring

/-- Claim C1, witness: the Gamma identity instantiated at the single
observation `y = 2`, `mu = 1`, `w = 1`. -/
theorem resid_dev_sq_sum_vs_deviance_witness :
    (∀ i : Fin 1, 0 < (fun _ => (2:ℝ)) i) ∧ (∀ i : Fin 1, 0 < (fun _ => (1:ℝ)) i) ∧
    ∑ i : Fin 1, (fun _ => (1:ℝ)) i *
        gammaResidDev 1 (fun _ => (2:ℝ)) (fun _ => (1:ℝ)) 1 i ^ (2:ℕ)
      = gammaDeviance 1 (fun _ => (2:ℝ)) (fun _ => (1:ℝ)) (fun _ => (1:ℝ)) 1 := by
  have hy : ∀ i : Fin 1, 0 < (fun _ => (2:ℝ)) i := fun _ => by norm_num
  have hmu : ∀ i : Fin 1, 0 < (fun _ => (1:ℝ)) i := fun _ => by norm_num
  exact ⟨hy, hmu, resid_dev_sq_sum_vs_deviance.2.1 1 _ _ _ hy hmu⟩

/-- Claim C1, counterexample: for the Poisson family at the single
observation `y = 1`, `mu = 2` with unit weight and scale, the weighted sum of
squared deviance residuals is `2 - 2*log 2` while the deviance is
`-2*log 2`: they differ by `2*(mu - y) = 2`. -/
theorem poisson_resid_dev_sq_sum_ne_deviance :
    ∑ i : Fin 1, (fun _ => (1:ℝ)) i *
        poissonResidDev 1 (fun _ => (1:ℝ)) (fun _ => (2:ℝ)) 1 i ^ (2:ℕ)
      ≠ poissonDeviance 1 (fun _ => (1:ℝ)) (fun _ => (2:ℝ)) (fun _ => (1:ℝ)) 1 := by
  have hclean : cleanPos ((1:ℝ) / 2) = 1 / 2 :=
    cleanPos_eq_self eps_le_half
  have hlog2 : Real.log ((1:ℝ) / 2) = -Real.log 2 := by
    rw [one_div, Real.log_inv]
  have hL : ∑ i : Fin 1, (fun _ => (1:ℝ)) i *
      poissonResidDev 1 (fun _ => (1:ℝ)) (fun _ => (2:ℝ)) 1 i ^ (2:ℕ)
      = 2 - 2 * Real.log 2 := by
    rw [Fin.sum_univ_one]
    simp only [poissonResidDev]
    rw [poisson_pointwise (by norm_num) (by norm_num)]
    rw [hclean, hlog2]
    ring
  have hR : poissonDeviance 1 (fun _ => (1:ℝ)) (fun _ => (2:ℝ)) (fun _ => (1:ℝ)) 1
      = -(2 * Real.log 2) := by
    simp only [poissonDeviance]
    rw [Fin.sum_univ_one]
    rw [hclean, hlog2]
    ring
  rw [hL, hR]
  intro h
  have : (2:ℝ) = 0 := by linarith
  norm_num at this

/-- Claim C4: for every Link variant, forward and inverse are mutual
inverses: `inverse(forward(p)) = p` on the clip-invariant interior of the
link's valid mean range, and `forward(inverse(z)) = z` on the corresponding
linear-predictor range. -/
theorem link_forward_inverse_roundtrip (L : LinkV) :
    (∀ p, meanDom L p → linkInverse L (linkCall L p) = p) ∧
    (∀ z, predDom L z → linkCall L (linkInverse L z) = z) := by
  cases L with
  | logit =>
      constructor
      · rintro p ⟨h1, h2⟩
        have hp : 0 < p := lt_of_lt_of_le eps_pos h1
        have h1p : 0 < 1 - p := by
          have := lt_of_le_of_lt h2 one_sub_eps_lt_one
          linarith
        simp only [linkCall, linkInverse, cleanP_eq_self h1 h2]
        rw [Real.exp_neg, Real.exp_log (div_pos hp h1p)]
        field_simp
      · rintro z ⟨h1, h2⟩
        simp only [linkCall, linkInverse] at *
        rw [cleanP_eq_self h1 h2]
        have he : 0 < Real.exp (-z) := Real.exp_pos _
        have hq : 1 / (1 + Real.exp (-z)) / (1 - 1 / (1 + Real.exp (-z)))
            = Real.exp z := by
          rw [Real.exp_neg]
          have h0 : Real.exp z ≠ 0 := (Real.exp_pos z).ne'
          have h0' : (0:ℝ) < 1 + (Real.exp z)⁻¹ := by positivity
          field_simp
        rw [hq, Real.log_exp]
  | power k =>
      constructor
      · rintro p ⟨hp, hk⟩
        simp only [linkCall, linkInverse]
        rw [← Real.rpow_mul hp.le, mul_one_div_cancel hk, Real.rpow_one]
      · rintro z ⟨hz, hk⟩
        simp only [linkCall, linkInverse]
        rw [← Real.rpow_mul hz.le, one_div_mul_cancel hk, Real.rpow_one]
  | log =>
      constructor
      · intro p h
        simp only [linkCall, linkInverse, cleanPos_eq_self h]
        exact Real.exp_log (lt_of_lt_of_le eps_pos h)
      · intro z h
        simp only [linkCall, linkInverse, cleanPos_eq_self h, Real.log_exp]
  | cdf D =>
      constructor
      · rintro p ⟨h1, h2⟩
        simp only [linkCall, linkInverse, cleanP_eq_self h1 h2]
        exact D.cdf_ppf p (lt_of_lt_of_le eps_pos h1)
          (lt_of_le_of_lt h2 one_sub_eps_lt_one)
      · rintro z ⟨h1, h2⟩
        simp only [linkCall, linkInverse, cleanP_eq_self h1 h2]
        exact D.ppf_cdf z
  | cloglog =>
      constructor
      · rintro p ⟨h1, h2⟩
        have hp : 0 < p := lt_of_lt_of_le eps_pos h1
        have h1p : 0 < 1 - p := by
          have := lt_of_le_of_lt h2 one_sub_eps_lt_one
          linarith
        have hlt1 : 1 - p < 1 := by linarith
        have hneg : Real.log (1 - p) < 0 := Real.log_neg h1p hlt1
        simp only [linkCall, linkInverse, cleanP_eq_self h1 h2]
        rw [Real.exp_log (by linarith : 0 < -Real.log (1 - p)), neg_neg,
          Real.exp_log h1p]
        ring
      · rintro z ⟨h1, h2⟩
        simp only [linkCall, linkInverse] at *
        rw [cleanP_eq_self h1 h2, sub_sub_cancel, Real.log_exp, neg_neg, Real.log_exp]
  | nbinom a =>
      constructor
      · rintro p ⟨h1, ha⟩
        have hp : 0 < p := lt_of_lt_of_le eps_pos h1
        have hpa : 0 < p + 1 / a := by positivity
        simp only [linkCall, linkInverse, cleanPos_eq_self h1]
        rw [Real.exp_neg, Real.exp_log (div_pos hp hpa)]
        have h1a : (0:ℝ) < 1 / a := by positivity
        field_simp
      · rintro z ⟨ha, hz, h1⟩
        simp only [linkCall, linkInverse] at *
        rw [cleanPos_eq_self h1]
        have hu1 : 1 < Real.exp (-z) := by
          have h := Real.exp_lt_exp.mpr (show (0:ℝ) < -z by linarith)
          rwa [Real.exp_zero] at h
        have hratio : -1 / (a * (1 - Real.exp (-z))) /
            (-1 / (a * (1 - Real.exp (-z))) + 1 / a) = Real.exp z := by
          have ht : Real.exp z < 1 := by
            rw [← Real.exp_zero]
            exact Real.exp_lt_exp.mpr hz
          have h0 : (0:ℝ) < Real.exp z := Real.exp_pos z
          have ht1 : Real.exp z - 1 ≠ 0 := by linarith
          rw [Real.exp_neg, show (1 : ℝ) - (Real.exp z)⁻¹
              = (Real.exp z - 1) / Real.exp z by field_simp]
          have hden : -(Real.exp z * a ^ 2) + a ^ 2 ≠ 0 := by nlinarith [pow_pos ha 2]
          field_simp
          have hne : a * (Real.exp z - 1) * (-(Real.exp z * a) + a * (Real.exp z - 1)) ≠ 0 := by
            rw [show a * (Real.exp z - 1) * (-(Real.exp z * a) + a * (Real.exp z - 1))
                = -(a ^ 2 * (Real.exp z - 1)) by ring]
            simp only [neg_ne_zero]
            exact mul_ne_zero (pow_ne_zero 2 ha.ne') ht1
          rw [div_eq_iff hne]
          ring
        rw [hratio, Real.log_exp]

/-- Claim C4, witness: the Logit link round-trips at the interior point
`p = 1/2`. -/
theorem link_forward_inverse_roundtrip_witness :
    meanDom .logit (1 / 2) ∧ linkInverse .logit (linkCall .logit (1 / 2)) = 1 / 2 := by
  have h : meanDom LinkV.logit (1 / 2) := by
    constructor
    · exact eps_le_half
    · have := eps_le_half
      linarith
  exact ⟨h, (link_forward_inverse_roundtrip .logit).1 (1 / 2) h⟩

/-- Claim C5: for every Link variant, `inverse_deriv(z)` agrees with the
base-class reference form `1 / deriv(inverse(z))` on the link's
linear-predictor range, including the variants that override it with an
analytic closed form (Logit, Power, Log, NegativeBinomial, CLogLog);
`CDFLink` re-implements the reference form verbatim so they agree
everywhere. -/
theorem link_inverse_deriv_consistent (L : LinkV) :
    ∀ z, invDerivDom L z → linkInverseDeriv L z = 1 / linkDeriv L (linkInverse L z) := by
  cases L with
  | logit =>
      rintro z ⟨h1, h2⟩
      simp only [linkInverseDeriv, linkDeriv, linkInverse] at *
      rw [cleanP_eq_self h1 h2, one_div_one_div, Real.exp_neg]
      have h0 : (0:ℝ) < Real.exp z := Real.exp_pos z
      have hd : (0:ℝ) < 1 + (Real.exp z)⁻¹ := by positivity
      have hd2 : (0:ℝ) < 1 + Real.exp z := by positivity
      field_simp
      ring
  | power k =>
      rintro z ⟨hz, hk⟩
      simp only [linkInverseDeriv, linkDeriv, linkInverse]
      rw [← Real.rpow_mul hz.le,
        show (1 - k) / k = -(1 / k * (k - 1)) by field_simp,
        Real.rpow_neg hz.le]
      have hx : 0 < z ^ (1 / k * (k - 1)) := Real.rpow_pos_of_pos hz _
      field_simp
      ring
  | log =>
      intro z h
      simp only [linkInverseDeriv, linkDeriv, linkInverse]
      rw [cleanPos_eq_self h, one_div_one_div]
  | cdf D =>
      intro z _
      rfl
  | cloglog =>
      rintro z ⟨h1, h2⟩
      simp only [linkInverseDeriv, linkDeriv, linkInverse] at *
      rw [cleanP_eq_self h1 h2, one_div_one_div, sub_sub_cancel, Real.log_exp,
        Real.exp_sub, Real.exp_neg]
      have hE : (0:ℝ) < Real.exp (Real.exp z) := Real.exp_pos _
      field_simp
  | nbinom a =>
      rintro z ⟨ha, hz⟩
      simp only [linkInverseDeriv, linkDeriv, linkInverse]
      rw [one_div_one_div]
      have h0 : (0:ℝ) < Real.exp z := Real.exp_pos z
      have ht1 : Real.exp z - 1 ≠ 0 :=
        sub_ne_zero.mpr fun h => hz (Real.exp_injective (by rw [h, Real.exp_zero]))
      have h1t : 1 - Real.exp z ≠ 0 := fun h => ht1 (by linarith)
      have hq : -1 / (a * (1 - Real.exp (-z)))
          = Real.exp z / (a * (1 - Real.exp z)) := by
        rw [Real.exp_neg, show (1:ℝ) - (Real.exp z)⁻¹
            = (Real.exp z - 1) / Real.exp z by field_simp]
        rw [div_eq_div_iff (by
            intro h
            rcases mul_eq_zero.mp h with h' | h'
            · exact ha.ne' h'
            · rw [div_eq_zero_iff] at h'
              rcases h' with h'' | h''
              · exact ht1 h''
              · exact h0.ne' h'')
          (by
            intro h
            rcases mul_eq_zero.mp h with h' | h'
            · exact ha.ne' h'
            · exact h1t h')]
        field_simp
        ring
      rw [hq]
      field_simp
      ring

/-- Claim C5, witness: the analytic Logit `inverse_deriv` agrees with the
reference form at `z = 0`. -/
theorem link_inverse_deriv_consistent_witness :
    invDerivDom .logit 0 ∧
    linkInverseDeriv .logit 0 = 1 / linkDeriv .logit (linkInverse .logit 0) := by
  have hinv : linkInverse .logit 0 = 1 / 2 := by
    show 1 / (1 + Real.exp (-0)) = 1 / 2
    rw [neg_zero, Real.exp_zero]
    norm_num
  have h : invDerivDom LinkV.logit 0 := by
    constructor
    · rw [hinv]
      exact eps_le_half
    · rw [hinv]
      have := eps_le_half
      linarith
  exact ⟨h, link_inverse_deriv_consistent .logit 0 h⟩

lemma linkDeriv_power_one (mu : ℝ) : linkDeriv (.power 1) mu = 1 := by
  show (1:ℝ) * mu ^ ((1:ℝ) - 1) = 1
  rw [sub_self, Real.rpow_zero, one_mul]

lemma linkDeriv_log_pos (mu : ℝ) : 0 < linkDeriv .log mu :=
  one_div_pos.mpr (cleanPos_pos mu)

lemma linkDeriv_logit_pos (mu : ℝ) : 0 < linkDeriv .logit mu := by
  obtain ⟨h1, h2⟩ := cleanP_mem mu
  have hp : 0 < cleanP mu := lt_of_lt_of_le eps_pos h1
  have hq : 0 < 1 - cleanP mu := by
    have := lt_of_le_of_lt h2 one_sub_eps_lt_one
    linarith
  exact one_div_pos.mpr (mul_pos hp hq)

lemma linkDeriv_cloglog_pos (mu : ℝ) : 0 < linkDeriv .cloglog mu := by
  obtain ⟨h1, h2⟩ := cleanP_mem mu
  have hp : 0 < cleanP mu := lt_of_lt_of_le eps_pos h1
  have hq1 : 0 < 1 - cleanP mu := by
    have := lt_of_le_of_lt h2 one_sub_eps_lt_one
    linarith
  have hq2 : 1 - cleanP mu < 1 := by linarith
  have hlog : Real.log (1 - cleanP mu) < 0 := Real.log_neg hq1 hq2
  have hc1 : cleanP mu - 1 < 0 := by linarith
  exact one_div_pos.mpr (mul_pos_of_neg_of_neg hc1 hlog)

lemma linkDeriv_cdf_pos (D : Dbn) (mu : ℝ) : 0 < linkDeriv (.cdf D) mu :=
  one_div_pos.mpr (D.pdf_pos _)

lemma varCall_binom_one_pos (mu : ℝ) : 0 < varCall (.binom 1) mu := by
  show 0 < cleanP (mu / 1) * (1 - cleanP (mu / 1)) * 1
  rw [div_one, mul_one]
  obtain ⟨h1, h2⟩ := cleanP_mem mu
  have hp : 0 < cleanP mu := lt_of_lt_of_le eps_pos h1
  have hq : 0 < 1 - cleanP mu := by
    have := lt_of_le_of_lt h2 one_sub_eps_lt_one
    linarith
  exact mul_pos hp hq

/-- A real to a (-2) real power is positive away from zero: for negative
bases `numpy` and the `Real.rpow` convention agree because
`cos(-2*pi) = 1`. -/
lemma rpow_neg_two_pos {x : ℝ} (hx : x ≠ 0) : 0 < x ^ (-2 : ℝ) := by
  rcases lt_or_gt_of_ne hx with h | h
  · rw [Real.rpow_def_of_neg h]
    have hc : Real.cos ((-2) * Real.pi) = 1 := by
      rw [neg_mul, Real.cos_neg, Real.cos_two_pi]
    rw [hc, mul_one]
    exact Real.exp_pos _
  · exact Real.rpow_pos_of_pos h _

/-- Claim C6 (amended): for every family variant and each of its accepted
links, the IRLS weight `1 / (link.deriv(mu)^2 * variance(mu))` is strictly
positive on the open interior of the family's valid mean support (positive
means for Poisson/QuasiPoisson/Gamma, nonzero mean for Gaussian under the
inverse link, every mean for Binomial and the remaining Gaussian links);
at the support boundary `mu = 0` of Poisson the variance vanishes and the
weight degenerates to a division by zero. -/
theorem irls_weights_pos_interior (F : FamV) (L : LinkV) (mu : ℝ)
    (hacc : acceptedL F L) (hmu : interiorMean F L mu) :
    0 < famWeights L (famVariance F) mu := by
  have key : ∀ (l : LinkV) (v : VarF), linkDeriv l mu ≠ 0 → 0 < varCall v mu →
      0 < famWeights l v mu := by
    intro l v hd hv
    exact one_div_pos.mpr (mul_pos (pow_two_pos_of_ne_zero hd) hv)
  cases F with
  | poisson =>
      have hvar : 0 < varCall (famVariance .poisson) mu := by
        show 0 < |mu| ^ (1:ℝ)
        exact Real.rpow_pos_of_pos (abs_pos.mpr (ne_of_gt hmu)) _
      rcases hacc with h | h | h <;> subst h
      · exact key _ _ (linkDeriv_log_pos mu).ne' hvar
      · rw [show famWeights (.power 1) (famVariance .poisson) mu
            = 1 / (linkDeriv (.power 1) mu ^ (2:ℕ) * varCall (famVariance .poisson) mu)
            from rfl, linkDeriv_power_one]
        norm_num
        exact hvar
      · have hd : 0 < linkDeriv (.power 0.5) mu := by
          show 0 < (0.5:ℝ) * mu ^ ((0.5:ℝ) - 1)
          exact mul_pos (by norm_num) (Real.rpow_pos_of_pos hmu _)
        exact key _ _ hd.ne' hvar
  | quasiPoisson =>
      have hvar : 0 < varCall (famVariance .quasiPoisson) mu := by
        show 0 < |mu| ^ (1:ℝ)
        exact Real.rpow_pos_of_pos (abs_pos.mpr (ne_of_gt hmu)) _
      rcases hacc with h | h | h <;> subst h
      · exact key _ _ (linkDeriv_log_pos mu).ne' hvar
      · rw [show famWeights (.power 1) (famVariance .quasiPoisson) mu
            = 1 / (linkDeriv (.power 1) mu ^ (2:ℕ) * varCall (famVariance .quasiPoisson) mu)
            from rfl, linkDeriv_power_one]
        norm_num
        exact hvar
      · have hd : 0 < linkDeriv (.power 0.5) mu := by
          show 0 < (0.5:ℝ) * mu ^ ((0.5:ℝ) - 1)
          exact mul_pos (by norm_num) (Real.rpow_pos_of_pos hmu _)
        exact key _ _ hd.ne' hvar
  | gamma =>
      have hvar : 0 < varCall (famVariance .gamma) mu := by
        show 0 < |mu| ^ (2:ℝ)
        exact Real.rpow_pos_of_pos (abs_pos.mpr (ne_of_gt hmu)) _
      rcases hacc with h | h | h <;> subst h
      · exact key _ _ (linkDeriv_log_pos mu).ne' hvar
      · rw [show famWeights (.power 1) (famVariance .gamma) mu
            = 1 / (linkDeriv (.power 1) mu ^ (2:ℕ) * varCall (famVariance .gamma) mu)
            from rfl, linkDeriv_power_one]
        norm_num
        exact hvar
      · have hd : linkDeriv (.power (-1)) mu ≠ 0 := by
          show (-1:ℝ) * mu ^ ((-1:ℝ) - 1) ≠ 0
          rw [show (-1:ℝ) - 1 = -2 by norm_num]
          have := rpow_neg_two_pos (ne_of_gt hmu)
          intro hcon
          nlinarith
        exact key _ _ hd hvar
  | gaussian =>
      have hvar : 0 < varCall (famVariance .gaussian) mu := one_pos
      rcases hacc with h | h | h <;> subst h
      · exact key _ _ (linkDeriv_log_pos mu).ne' hvar
      · rw [show famWeights (.power 1) (famVariance .gaussian) mu
            = 1 / (linkDeriv (.power 1) mu ^ (2:ℕ) * varCall (famVariance .gaussian) mu)
            from rfl, linkDeriv_power_one]
        norm_num
        exact hvar
      · have hne : mu ≠ 0 := hmu rfl
        have hd : linkDeriv (.power (-1)) mu ≠ 0 := by
          show (-1:ℝ) * mu ^ ((-1:ℝ) - 1) ≠ 0
          rw [show (-1:ℝ) - 1 = -2 by norm_num]
          have := rpow_neg_two_pos hne
          intro hcon
          nlinarith
        exact key _ _ hd hvar
  | binomial =>
      have hvar : 0 < varCall (famVariance .binomial) mu := varCall_binom_one_pos mu
      rcases hacc with h | ⟨D, h⟩ | h | h | h <;> subst h
      · exact key _ _ (linkDeriv_logit_pos mu).ne' hvar
      · exact key _ _ (linkDeriv_cdf_pos D mu).ne' hvar
      · exact key _ _ (linkDeriv_log_pos mu).ne' hvar
      · exact key _ _ (linkDeriv_cloglog_pos mu).ne' hvar
      · rw [show famWeights (.power 1) (famVariance .binomial) mu
            = 1 / (linkDeriv (.power 1) mu ^ (2:ℕ) * varCall (famVariance .binomial) mu)
            from rfl, linkDeriv_power_one]
        norm_num
        exact hvar

/-- Claim C6, witness: the Poisson family with its default log link has a
strictly positive IRLS weight at the interior mean `mu = 1`. -/
theorem irls_weights_pos_interior_witness :
    acceptedL .poisson .log ∧ interiorMean .poisson .log 1 ∧
    0 < famWeights LinkV.log (famVariance .poisson) 1 := by
  have h1 : acceptedL FamV.poisson LinkV.log := Or.inl rfl
  have h2 : interiorMean FamV.poisson LinkV.log 1 := by
    show (0:ℝ) < 1
    norm_num
  exact ⟨h1, h2, irls_weights_pos_interior .poisson .log 1 h1 h2⟩

/-- Claim C6, counterexample: at the boundary mean `mu = 0` of the Poisson
support the variance `|mu|^1` vanishes, so the IRLS weight is a division by
zero (`inf` under numpy, `0` in the total real embedding) and in particular
not a strictly positive finite value. -/
theorem poisson_irls_weight_not_pos_at_zero :
    varCall (famVariance .poisson) 0 = 0 ∧
    famWeights LinkV.log (famVariance .poisson) 0 = 0 ∧
    ¬ 0 < famWeights LinkV.log (famVariance .poisson) 0 := by
  have hv : varCall (famVariance .poisson) 0 = 0 := by
    show |(0:ℝ)| ^ (1:ℝ) = 0
    rw [abs_zero, Real.zero_rpow one_ne_zero]
  have hw : famWeights LinkV.log (famVariance .poisson) 0 = 0 := by
    show 1 / (linkDeriv LinkV.log 0 ^ (2:ℕ) * varCall (famVariance .poisson) 0) = 0
    rw [hv, mul_zero, div_zero]
  refine ⟨hv, hw, ?_⟩
  rw [hw]
  exact lt_irrefl 0

/-- Claim C10: `Family._setlink` assigns `self._link = link` before any
validation, so whenever it raises (any of its error outcomes) the family is
left holding the rejected link. -/
theorem setlink_nonatomic_stores_rejected_link (f : FamilyState) (lnk : PyClass)
    (e : SetlinkErr) (herr : (setlink f lnk).2 = some e) :
    (setlink f lnk).1.linkAttr = some lnk := by
  unfold setlink
  split
  · cases hl : f.links with
    | nil => rfl
    | cons a as => simp only [hl]; split <;> rfl
  · rfl

/-- Claim C10, witness: assigning the non-`Link` class `NegativeBinomial` to
a Poisson-family state previously holding `log` raises the `TypeError` yet
leaves the state holding `NegativeBinomial`, not `log`. -/
theorem setlink_nonatomic_stores_rejected_link_witness :
    (setlink ⟨famLinks .poisson, some .log⟩ .NegativeBinomial).2 = some .typeError ∧
    (setlink ⟨famLinks .poisson, some .log⟩ .NegativeBinomial).1.linkAttr
      = some .NegativeBinomial ∧
    (setlink ⟨famLinks .poisson, some .log⟩ .NegativeBinomial).1.linkAttr
      ≠ some .log := by
  refine ⟨by decide, ?_, by decide⟩
  exact setlink_nonatomic_stores_rejected_link _ _ .typeError (by decide)

end
